import Mathlib

/-!
Verification of `gitmanip.py`: a shallow embedding of the chain validator
(`commit_chain`), the propagation engine (`apply_patch`) and the flattening
engine (`flatten_merges`), together with theorems settling the specification
claims.

The external git backend is modelled as a deterministic oracle (`GitOracle`):
each fallible operation (`cherry-pick` after a checkout, two-way `merge`,
`commit-tree` forge) is a pure function whose `none` result stands for the
recoverable `PatchError` the Python code raises.  Backend availability
(`GitError`) is assumed: the spec treats it as unconditionally fatal and no
claim depends on it.  Every embedded operation also records the backend calls
it performs, in order, so that claims about which backend operations are
issued can be stated.
-/

namespace Gitmanip

/-- One call to the external git backend.  `cherryPick chg base` records
`ensure_patch_applies` (checkout `base`, then cherry-pick `chg`);
`mergeTwo a b` records `Git.merge(a, b)`; `forgeMerge t ps` records
`Git.forge_merge(t, ps)`. -/
inductive Call : Type where
  | cherryPick (chg base : String)
  | mergeTwo (a b : String)
  | forgeMerge (treeish : String) (ps : List String)
deriving DecidableEq

/-- Is this backend call a two-way content merge? -/
def Call.isMergeTwo : Call → Bool
  | .mergeTwo _ _ => true
  | _ => false

/-- Is this backend call a forged (commit-tree) merge? -/
def Call.isForge : Call → Bool
  | .forgeMerge _ _ => true
  | _ => false

/-- Deterministic model of the backend's outcomes.  `cherryPick chg base`
returns the new head after cherry-picking `chg` on top of `base`, or `none`
for a `PatchError`; `mergeTwo a b` likewise for `git merge` of `b` into `a`;
`forgeMerge` (`git commit-tree`) cannot raise `PatchError`. -/
structure GitOracle where
  cherryPick : String → String → Option String
  mergeTwo : String → String → Option String
  forgeMerge : String → List String → String

/-- The propagation-tree node: the Python dict
`{'commit': ..., 'parents': [...]}`. -/
inductive BranchNode : Type where
  | mk (commit : String) (parents : List BranchNode)

/-- The `'commit'` field. -/
def BranchNode.commit : BranchNode → String
  | .mk c _ => c

/-- The `'parents'` field. -/
def BranchNode.parents : BranchNode → List BranchNode
  | .mk _ ps => ps

mutual

/-- Decidable equality of nodes. -/
def BranchNode.beq : BranchNode → BranchNode → Bool
  | .mk c ps, .mk d qs => c == d && BranchNode.beqList ps qs

/-- Decidable equality of node lists. -/
def BranchNode.beqList : List BranchNode → List BranchNode → Bool
  | [], [] => true
  | p :: ps, q :: qs => BranchNode.beq p q && BranchNode.beqList ps qs
  | _, _ => false

end

mutual

theorem BranchNode.beq_iff : ∀ a b : BranchNode, BranchNode.beq a b = true ↔ a = b
  | .mk c ps, .mk d qs => by
    simp only [BranchNode.beq, Bool.and_eq_true, beq_iff_eq, BranchNode.mk.injEq]
    exact and_congr Iff.rfl (BranchNode.beqList_iff ps qs)

theorem BranchNode.beqList_iff : ∀ a b : List BranchNode,
    BranchNode.beqList a b = true ↔ a = b
  | [], [] => by simp [BranchNode.beqList]
  | [], _ :: _ => by simp [BranchNode.beqList]
  | _ :: _, [] => by simp [BranchNode.beqList]
  | p :: ps, q :: qs => by
    simp only [BranchNode.beqList, Bool.and_eq_true, List.cons.injEq]
    exact and_congr (BranchNode.beq_iff p q) (BranchNode.beqList_iff ps qs)

end

instance : DecidableEq BranchNode := fun a b =>
  decidable_of_iff (BranchNode.beq a b = true) (BranchNode.beq_iff a b)

/-- Errors `apply_patch` can raise: `patchError` is the recoverable
`PatchError`; `typeError` models the uncaught `TypeError` hit when a
recursive call falls through every branch and returns Python `None`
(only possible on a node with three or more parents). -/
inductive PErr : Type where
  | patchError
  | typeError
deriving DecidableEq

/-- Embedding of `apply_patch(git, commit, root)` (gitmanip.py lines 123-150).
The first component is the returned value — `.ok (some n)` for a returned
dict, `.ok none` for Python's implicit `None` on a node with three or more
parents, `.error e` for a raised exception — and the second component is the
ordered list of backend calls performed.  The direct apply
(`ensure_patch_applies`) runs first, outside any handler; in the 1-parent
case the handler catches `PatchError` from the recursion or the merge; in the
2-parent case each side's recursion is tried separately and the final merge
is outside any handler, so its `PatchError` propagates. -/
def apply_patch (g : GitOracle) (c : String) : BranchNode → Except PErr (Option BranchNode) × List Call
  | .mk rc ps =>
    match g.cherryPick c rc with
    | none => (.error .patchError, [.cherryPick c rc])
    | some simple =>
      match ps with
      | [] =>
        (.ok (some (.mk simple [.mk rc []])), [.cherryPick c rc])
      | [parent] =>
        match apply_patch g c parent with
        | (.error .patchError, tr) =>
          (.ok (some (.mk simple [.mk rc [parent]])), .cherryPick c rc :: tr)
        | (.error .typeError, tr) =>
          (.error .typeError, .cherryPick c rc :: tr)
        | (.ok none, tr) =>
          (.error .typeError, .cherryPick c rc :: tr)
        | (.ok (some recurse), tr) =>
          match g.mergeTwo rc recurse.commit with
          | none =>
            (.ok (some (.mk simple [.mk rc [parent]])),
              .cherryPick c rc :: tr ++ [.mergeTwo rc recurse.commit])
          | some m =>
            (.ok (some (.mk m [.mk rc [parent], recurse])),
              .cherryPick c rc :: tr ++ [.mergeTwo rc recurse.commit])
      | [p1, p2] =>
        match apply_patch g c p1 with
        | (.error .typeError, tr1) =>
          (.error .typeError, .cherryPick c rc :: tr1)
        | (res1, tr1) =>
          match apply_patch g c p2 with
          | (.error .typeError, tr2) =>
            (.error .typeError, .cherryPick c rc :: tr1 ++ tr2)
          | (res2, tr2) =>
            match (match res1 with | .ok (some n) => some n | _ => none),
                  (match res2 with | .ok (some n) => some n | _ => none) with
            | none, none =>
              (.ok (some (.mk simple [.mk rc [p1, p2]])),
                .cherryPick c rc :: tr1 ++ tr2)
            | some n1, none =>
              match g.mergeTwo n1.commit p2.commit with
              | none =>
                (.error .patchError,
                  .cherryPick c rc :: tr1 ++ tr2 ++ [.mergeTwo n1.commit p2.commit])
              | some m =>
                (.ok (some (.mk m [n1, p2])),
                  .cherryPick c rc :: tr1 ++ tr2 ++ [.mergeTwo n1.commit p2.commit])
            | _, some n2 =>
              match g.mergeTwo p1.commit n2.commit with
              | none =>
                (.error .patchError,
                  .cherryPick c rc :: tr1 ++ tr2 ++ [.mergeTwo p1.commit n2.commit])
              | some m =>
                (.ok (some (.mk m [p1, n2])),
                  .cherryPick c rc :: tr1 ++ tr2 ++ [.mergeTwo p1.commit n2.commit])
      | _ =>
        (.ok none, [.cherryPick c rc])

mutual

/-- Embedding of `flatten_merges(git, root)` (gitmanip.py lines 152-174).
`none` stands for a raised `PatchError` (fatal here: the re-apply in the
1-parent case is outside any handler).  The second component is the ordered
backend-call trace. -/
def flatten_merges (g : GitOracle) : BranchNode → Option BranchNode × List Call
  | .mk rc ps =>
    match ps with
    | [] => (some (.mk rc []), [])
    | [parent] =>
      match flatten_merges g parent with
      | (none, tr) => (none, tr)
      | (some flattened, tr) =>
        match g.cherryPick rc flattened.commit with
        | none => (none, tr ++ [.cherryPick rc flattened.commit])
        | some commit =>
          (some (.mk commit [flattened]), tr ++ [.cherryPick rc flattened.commit])
    | qs =>
      match flatten_list g qs with
      | (none, tr) => (none, tr)
      | (some parents, tr) =>
        if parents.length > 2 then
          (some (.mk (g.forgeMerge rc (parents.map BranchNode.commit)) parents),
            tr ++ [.forgeMerge rc (parents.map BranchNode.commit)])
        else
          (some (.mk rc qs), tr)
termination_by n => sizeOf n

/-- The accumulation loop of `flatten_merges`' final branch (lines 161-167):
flatten each parent in order; splice the flattened node's parent list when it
still has more than one parent, otherwise append the *original* parent. -/
def flatten_list (g : GitOracle) : List BranchNode → Option (List BranchNode) × List Call
  | [] => (some [], [])
  | p :: rest =>
    match flatten_merges g p with
    | (none, tr) => (none, tr)
    | (some flattened, tr) =>
      match flatten_list g rest with
      | (none, tr2) => (none, tr ++ tr2)
      | (some acc, tr2) =>
        if flattened.parents.length > 1 then
          (some (flattened.parents ++ acc), tr ++ tr2)
        else
          (some (p :: acc), tr ++ tr2)
termination_by l => sizeOf l

end

/-- One entry of `git rev-list --parents` output: the Python dict
`{'hash': ..., 'parents': [...]}`. -/
structure ChainEntry : Type where
  hash : String
  parents : List String
deriving DecidableEq

/-- Embedding of `commit_chain(git, base, upstream)` (gitmanip.py lines
103-110), as a function of the backend's newest-first `rev_list` output.
`none` stands for a raised `GitParseError`.  `parents.headD ""` reads
`commit['parents'][0]`, which Python only evaluates after the first check has
certified every entry has exactly one parent. -/
def commit_chain (commits : List ChainEntry) : Option (List String) :=
  if commits.any (fun commit => commit.parents.length ≠ 1) then
    none
  else if ((commits.drop 1).map (fun commit => commit.hash.take 7) ≠
      commits.dropLast.map (fun commit => (commit.parents.headD "").take 7)) then
    none
  else
    some (commits.reverse.map (fun commit => commit.hash))

mutual

/-- Every node of a tree (the node itself and, recursively, all nodes of its
parents). -/
def allNodes : BranchNode → List BranchNode
  | .mk c ps => .mk c ps :: allNodesList ps

/-- All nodes of every tree in a list. -/
def allNodesList : List BranchNode → List BranchNode
  | [] => []
  | p :: rest => allNodes p ++ allNodesList rest

end

/-- The structural invariant prior to flattening: every node of the tree has
at most two parents. -/
def arityOK (n : BranchNode) : Bool :=
  (allNodes n).all fun m => decide (m.parents.length ≤ 2)

/-- `mkChain root [cK, ..., c1]` is the chain of single-parent nodes
`cK → ... → c1 → root`, topmost node first. -/
def mkChain (root : BranchNode) : List String → BranchNode
  | [] => root
  | c :: rest => .mk c [mkChain root rest]

/-- `chainShape root n k` holds when `n` is a chain of `k` single-parent
nodes ending exactly at `root`, i.e. the tree still has `k` edges between
its top and `root`. -/
def chainShape (root : BranchNode) : BranchNode → Nat → Bool
  | n, 0 => BranchNode.beq n root
  | n, k + 1 =>
    match n.parents with
    | [p] => chainShape root p k
    | _ => false

/-- Spec-side linkage condition on the backend's newest-first history: each
entry's declared (sole) parent identifier equals the next entry's identifier
in full, i.e. the list is one unbroken line of descent. -/
def linkedFull : List ChainEntry → Bool
  | [] => true
  | [_] => true
  | a :: b :: rest => (a.parents.headD "" == b.hash) && linkedFull (b :: rest)

/-- A concrete deterministic backend oracle on which every operation
succeeds, producing a distinct identifier recording how it was built. -/
def gTest : GitOracle where
  cherryPick := fun c b => some (c ++ "@" ++ b)
  mergeTwo := fun a b => some (a ++ "+" ++ b)
  forgeMerge := fun t ps => t ++ "!" ++ String.join ps

/-- A concrete backend oracle whose cherry-pick always reports a conflict
while merges would succeed. -/
def gNone : GitOracle where
  cherryPick := fun _ _ => none
  mergeTwo := fun a b => some (a ++ "+" ++ b)
  forgeMerge := fun t ps => t ++ "!" ++ String.join ps

theorem allNodes_mk (c : String) (ps : List BranchNode) :
    allNodes (.mk c ps) = .mk c ps :: allNodesList ps := by
  rw [allNodes]

theorem self_mem_allNodes (n : BranchNode) : n ∈ allNodes n := by
  cases n with
  | mk c ps => rw [allNodes_mk]; exact List.mem_cons_self _ _

theorem mem_allNodesList {ps : List BranchNode} {n : BranchNode} :
    n ∈ allNodesList ps ↔ ∃ p ∈ ps, n ∈ allNodes p := by
  induction ps with
  | nil => simp [allNodesList]
  | cons p rest ih => rw [allNodesList]; simp [ih]

theorem arity_of_mem {n m : BranchNode} (h : arityOK n = true) (hm : m ∈ allNodes n) :
    m.parents.length ≤ 2 := by
  simp only [arityOK, List.all_eq_true, decide_eq_true_eq] at h
  exact h m hm

theorem arityOK_mk {c : String} {ps : List BranchNode} :
    arityOK (.mk c ps) = true ↔ ps.length ≤ 2 ∧ ∀ p ∈ ps, arityOK p = true := by
  simp only [arityOK, List.all_eq_true, decide_eq_true_eq]
  constructor
  · intro h
    refine ⟨?_, fun p hp m hm => ?_⟩
    · simpa [BranchNode.parents] using h (.mk c ps) (self_mem_allNodes _)
    · exact h m (by
        rw [allNodes_mk]
        exact List.mem_cons_of_mem _ (mem_allNodesList.mpr ⟨p, hp, hm⟩))
  · rintro ⟨h1, h2⟩ m hm
    rw [allNodes_mk, List.mem_cons] at hm
    rcases hm with rfl | hm
    · simpa [BranchNode.parents] using h1
    · obtain ⟨p, hp, hmp⟩ := mem_allNodesList.mp hm
      exact h2 p hp m hmp

/-- Claim C2: for a 1-parent node where the direct apply succeeds, the
recursive propagation onto the parent succeeds and the subsequent two-way
merge of the original node's commit with the recursed parent's commit
succeeds, `apply_patch` returns a node whose commit is the merge result and
whose parents are exactly the original node first and the recursed parent
second. -/
theorem apply_patch_one_parent_success_parents (g : GitOracle) (c rc : String)
    (parent recurse : BranchNode) (s m : String) (tr : List Call)
    (hs : g.cherryPick c rc = some s)
    (hr : apply_patch g c parent = (.ok (some recurse), tr))
    (hm : g.mergeTwo rc recurse.commit = some m) :
    (apply_patch g c (.mk rc [parent])).1 =
      .ok (some (.mk m [.mk rc [parent], recurse])) := by
  simp [apply_patch, hs, hr, hm]

/-- Witness for C2: on the all-succeeding oracle, propagating `"c"` onto the
1-parent node `x → r` yields the merge commit with parents
`[original x-node, recursed parent]`. -/
theorem apply_patch_one_parent_success_parents_witness :
    (apply_patch gTest "c" (.mk "x" [.mk "r" []])).1 =
      .ok (some (.mk "x+c@r" [.mk "x" [.mk "r" []], .mk "c@r" [.mk "r" []]])) :=
  apply_patch_one_parent_success_parents gTest "c" "x" (.mk "r" [])
    (.mk "c@r" [.mk "r" []]) "c@x" "x+c@r" [.cherryPick "c" "r"]
    (by rfl) (by rfl) (by rfl)

/-- Claim C6: for every node, whatever its parent count, `apply_patch`
performs the direct single-changeset apply onto the node's own commit as its
first backend call; and when that direct apply reports a conflict the whole
call raises `PatchError` with that single backend call as its entire trace —
no recursion into parents and no merge is ever attempted, even when a
recursion-plus-merge path would have succeeded. -/
theorem apply_patch_direct_apply_first (g : GitOracle) (c : String) (root : BranchNode) :
    (apply_patch g c root).2.head? = some (.cherryPick c root.commit) ∧
    (g.cherryPick c root.commit = none →
      apply_patch g c root = (.error .patchError, [.cherryPick c root.commit])) := by
  obtain ⟨rc, ps⟩ := root
  simp only [BranchNode.commit]
  constructor
  · simp only [apply_patch]
    cases hcp : g.cherryPick c rc with
    | none => simp
    | some s =>
      simp only []
      repeat' split
      all_goals simp
  · intro h
    simp [apply_patch, h]

/-- Witness for C6: on the oracle whose cherry-pick always conflicts (while
merges would succeed), propagating onto a 1-parent node performs exactly the
one direct-apply call and raises `PatchError`. -/
theorem apply_patch_direct_apply_first_witness :
    (apply_patch gNone "c" (.mk "x" [.mk "r" []])).2.head? = some (.cherryPick "c" "x") ∧
    apply_patch gNone "c" (.mk "x" [.mk "r" []]) = (.error .patchError, [.cherryPick "c" "x"]) :=
  ⟨(apply_patch_direct_apply_first gNone "c" (.mk "x" [.mk "r" []])).1,
    (apply_patch_direct_apply_first gNone "c" (.mk "x" [.mk "r" []])).2 (by rfl)⟩

/-- Claim C5: in the 2-parent case of `apply_patch` (with the direct apply
succeeding), the result follows the case table: both recursions fail — fall
back to the direct apply with single parent the original node; only side 2
fails — merge the recursed side 1 with the original second parent, parents
`[recursed1, originalParent2]`; only side 1 fails — merge the original first
parent with the recursed side 2, parents `[originalParent1, recursed2]`; both
succeed — deterministically the `[originalParent1, recursed2]` asymmetric
blend is taken (the recursed side 1 is discarded, the two recursions are
never merged together). -/
theorem apply_patch_two_parent_case_table (g : GitOracle) (c rc : String)
    (p1 p2 : BranchNode) (s : String) (t1 t2 : List Call)
    (hs : g.cherryPick c rc = some s) :
    (apply_patch g c p1 = (.error .patchError, t1) →
      apply_patch g c p2 = (.error .patchError, t2) →
      (apply_patch g c (.mk rc [p1, p2])).1 = .ok (some (.mk s [.mk rc [p1, p2]]))) ∧
    (∀ r1 m, apply_patch g c p1 = (.ok (some r1), t1) →
      apply_patch g c p2 = (.error .patchError, t2) →
      g.mergeTwo r1.commit p2.commit = some m →
      (apply_patch g c (.mk rc [p1, p2])).1 = .ok (some (.mk m [r1, p2]))) ∧
    (∀ r2 m, apply_patch g c p1 = (.error .patchError, t1) →
      apply_patch g c p2 = (.ok (some r2), t2) →
      g.mergeTwo p1.commit r2.commit = some m →
      (apply_patch g c (.mk rc [p1, p2])).1 = .ok (some (.mk m [p1, r2]))) ∧
    (∀ r1 r2 m, apply_patch g c p1 = (.ok (some r1), t1) →
      apply_patch g c p2 = (.ok (some r2), t2) →
      g.mergeTwo p1.commit r2.commit = some m →
      (apply_patch g c (.mk rc [p1, p2])).1 = .ok (some (.mk m [p1, r2]))) := by
  refine ⟨fun h1 h2 => ?_, fun r1 m h1 h2 hm => ?_, fun r2 m h1 h2 hm => ?_,
    fun r1 r2 m h1 h2 hm => ?_⟩ <;>
    simp [apply_patch, hs, h1, h2, *]

/-- Witness for C5: on the all-succeeding oracle (both sides succeed), the
2-parent node `x` with 0-parent parents `p`, `q` propagates to the merge of
the original `p` with the recursed `q`-side, parents `[p, recursed2]`. -/
theorem apply_patch_two_parent_case_table_witness :
    (apply_patch gTest "c" (.mk "x" [.mk "p" [], .mk "q" []])).1 =
      .ok (some (.mk "p+c@q" [.mk "p" [], .mk "c@q" [.mk "q" []]])) :=
  (apply_patch_two_parent_case_table gTest "c" "x" (.mk "p" []) (.mk "q" [])
      "c@x" [.cherryPick "c" "p"] [.cherryPick "c" "q"] (by rfl)).2.2.2
    (.mk "c@p" [.mk "p" []]) (.mk "c@q" [.mk "q" []]) "p+c@q"
    (by rfl) (by rfl) (by rfl)

theorem except_match_eq_some {res : Except PErr (Option BranchNode)} {n : BranchNode}
    (h : (match res with | .ok (some x) => some x | _ => none) = some n) :
    res = .ok (some n) := by
  rcases res with e | o
  · exact absurd h (by simp)
  · rcases o with _ | x
    · exact absurd h (by simp)
    · simpa using h

theorem apply_patch_ok_of_match {g : GitOracle} {c : String} {p : BranchNode}
    {res : Except PErr (Option BranchNode)} {tr : List Call} {n : BranchNode}
    (hm : (match res with | .ok (some x) => some x | _ => none) = some n)
    (hrec : apply_patch g c p = (res, tr)) :
    apply_patch g c p = (.ok (some n), tr) := by
  have h2 := except_match_eq_some hm
  subst h2
  exact hrec

theorem apply_patch_arity (g : GitOracle) (c : String) (root : BranchNode) :
    arityOK root = true → ∀ res tr, apply_patch g c root = (.ok (some res), tr) →
      arityOK res = true := by
  induction root using apply_patch.induct g c
  all_goals intro hroot res tr h
  all_goals simp only [apply_patch, *] at h
  all_goals try (exfalso ; simp at h ; done)
  all_goals simp only [Prod.mk.injEq, Except.ok.injEq, Option.some.injEq] at h
  all_goals obtain ⟨h1, -⟩ := h
  all_goals subst h1
  all_goals rw [arityOK_mk]
  all_goals refine ⟨by simp, ?_⟩
  all_goals intro p hp
  all_goals simp only [List.mem_cons, List.mem_singleton, List.not_mem_nil, or_false] at hp
  all_goals obtain rfl | rfl := hp
  all_goals try solve_by_elim [apply_patch_ok_of_match, (arityOK_mk.mp hroot).2, hroot,
    List.mem_cons_self, List.mem_cons_of_mem]
  all_goals (rename_i hm hmg
             have hres := except_match_eq_some hm
             subst hres
             solve_by_elim [(arityOK_mk.mp hroot).2, List.mem_cons_self,
               List.mem_cons_of_mem])

theorem mem_allNodes_of_parent {a m n : BranchNode} (ha : a ∈ m.parents)
    (hn : n ∈ allNodes a) : n ∈ allNodes m := by
  obtain ⟨c, qs⟩ := m
  rw [allNodes_mk]
  exact List.mem_cons_of_mem _
    (mem_allNodesList.mpr ⟨a, by simpa [BranchNode.parents] using ha, hn⟩)

mutual

theorem flatten_merges_forged (g : GitOracle) : ∀ (root : BranchNode),
    arityOK root = true → ∀ res tr, flatten_merges g root = (some res, tr) →
    ∀ n ∈ allNodes res, 2 < n.parents.length →
      ∃ t, n.commit = g.forgeMerge t (n.parents.map BranchNode.commit) ∧
        Call.forgeMerge t (n.parents.map BranchNode.commit) ∈ tr
  | .mk rc [] => by
    intro harity res tr h n hn hgt
    simp only [flatten_merges, Prod.mk.injEq, Option.some.injEq] at h
    obtain ⟨h1, -⟩ := h
    subst h1
    rw [allNodes_mk] at hn
    simp only [allNodesList, List.mem_singleton] at hn
    subst hn
    simp [BranchNode.parents] at hgt
  | .mk rc [p] => by
    intro harity res tr h n hn hgt
    rcases hfp : flatten_merges g p with ⟨of, trf⟩
    simp only [flatten_merges, hfp] at h
    rcases of with _ | f
    · exact absurd h (by simp)
    · rcases hcp : g.cherryPick rc f.commit with _ | cm
      · simp only [hcp] at h
        exact absurd h (by simp)
      · simp only [hcp, Prod.mk.injEq, Option.some.injEq] at h
        obtain ⟨h1, h2⟩ := h
        subst h1
        rw [allNodes_mk] at hn
        rcases List.mem_cons.mp hn with rfl | hn2
        · simp [BranchNode.parents] at hgt
        · simp only [allNodesList, List.append_nil] at hn2
          obtain ⟨t, hc, hmem⟩ :=
            flatten_merges_forged g p ((arityOK_mk.mp harity).2 p (by simp)) f trf hfp n hn2 hgt
          exact ⟨t, hc, h2 ▸ List.mem_append_left _ hmem⟩
  | .mk rc (p1 :: p2 :: rest) => by
    intro harity res tr h n hn hgt
    rcases hfl : flatten_list g (p1 :: p2 :: rest) with ⟨oacc, trl⟩
    simp only [flatten_merges, hfl] at h
    rcases oacc with _ | acc
    · exact absurd h (by simp)
    · by_cases hlen : acc.length > 2
      all_goals simp only [hlen, if_true, if_false, reduceIte, Prod.mk.injEq,
        Option.some.injEq] at h
      · obtain ⟨h1, h2⟩ := h
        subst h1
        rw [allNodes_mk] at hn
        rcases List.mem_cons.mp hn with rfl | hn2
        · refine ⟨rc, by simp [BranchNode.commit, BranchNode.parents], ?_⟩
          simp only [BranchNode.parents]
          exact h2 ▸ List.mem_append_right _ (by simp)
        · obtain ⟨a, ha, hna⟩ := mem_allNodesList.mp hn2
          obtain ⟨t, hc, hmem⟩ :=
            flatten_list_forged g (p1 :: p2 :: rest) ((arityOK_mk.mp harity).2)
              acc trl hfl a ha n hna hgt
          exact ⟨t, hc, h2 ▸ List.mem_append_left _ hmem⟩
      · obtain ⟨h1, -⟩ := h
        subst h1
        exact absurd (arity_of_mem harity hn) (by omega)
termination_by root => sizeOf root

theorem flatten_list_forged (g : GitOracle) : ∀ (ps : List BranchNode),
    (∀ p ∈ ps, arityOK p = true) → ∀ acc tr, flatten_list g ps = (some acc, tr) →
    ∀ a ∈ acc, ∀ n ∈ allNodes a, 2 < n.parents.length →
      ∃ t, n.commit = g.forgeMerge t (n.parents.map BranchNode.commit) ∧
        Call.forgeMerge t (n.parents.map BranchNode.commit) ∈ tr
  | [] => by
    intro harity acc tr h a ha n hn hgt
    simp only [flatten_list, Prod.mk.injEq, Option.some.injEq] at h
    obtain ⟨h1, -⟩ := h
    subst h1
    exact absurd ha (by simp)
  | p :: rest => by
    intro harity acc tr h a ha n hn hgt
    rcases hfp : flatten_merges g p with ⟨of, trf⟩
    simp only [flatten_list, hfp] at h
    rcases of with _ | f
    · exact absurd h (by simp)
    · rcases hfr : flatten_list g rest with ⟨oacc, trr⟩
      simp only [hfr] at h
      rcases oacc with _ | acc0
      · exact absurd h (by simp)
      · by_cases hlen : f.parents.length > 1
        all_goals simp only [hlen, if_true, if_false, reduceIte, Prod.mk.injEq,
          Option.some.injEq] at h
        · obtain ⟨h1, h2⟩ := h
          subst h1
          rcases List.mem_append.mp ha with haf | ha0
          · obtain ⟨t, hc, hmem⟩ :=
              flatten_merges_forged g p (harity p (by simp)) f trf hfp n
                (mem_allNodes_of_parent haf hn) hgt
            exact ⟨t, hc, h2 ▸ List.mem_append_left _ hmem⟩
          · obtain ⟨t, hc, hmem⟩ :=
              flatten_list_forged g rest (fun q hq => harity q (by simp [hq]))
                acc0 trr hfr a ha0 n hn hgt
            exact ⟨t, hc, h2 ▸ List.mem_append_right _ hmem⟩
        · obtain ⟨h1, h2⟩ := h
          subst h1
          rcases List.mem_cons.mp ha with rfl | ha0
          · exact absurd (arity_of_mem (harity a (by simp)) hn) (by omega)
          · obtain ⟨t, hc, hmem⟩ :=
              flatten_list_forged g rest (fun q hq => harity q (by simp [hq]))
                acc0 trr hfr a ha0 n hn hgt
            exact ⟨t, hc, h2 ▸ List.mem_append_right _ hmem⟩
termination_by ps => sizeOf ps

end

mutual

theorem flatten_merges_no_mergeTwo (g : GitOracle) : ∀ (root : BranchNode),
    ((flatten_merges g root).2.all fun k => !k.isMergeTwo) = true
  | .mk rc [] => by simp [flatten_merges]
  | .mk rc [p] => by
    have ih := flatten_merges_no_mergeTwo g p
    rcases hfp : flatten_merges g p with ⟨of, trf⟩
    rw [hfp] at ih
    simp only [flatten_merges, hfp]
    rcases of with _ | f
    · simpa using ih
    · rcases hcp : g.cherryPick rc f.commit with _ | cm
      all_goals simp_all [Call.isMergeTwo]
  | .mk rc (p1 :: p2 :: rest) => by
    have ih := flatten_list_no_mergeTwo g (p1 :: p2 :: rest)
    rcases hfl : flatten_list g (p1 :: p2 :: rest) with ⟨oacc, trl⟩
    rw [hfl] at ih
    rcases oacc with _ | acc
    · simp only [flatten_merges, hfl]
      simpa using ih
    · simp only [flatten_merges, hfl]
      by_cases hlen : acc.length > 2
      · rw [if_pos hlen]
        simp_all [Call.isMergeTwo]
      · rw [if_neg hlen]
        simp_all
termination_by root => sizeOf root

theorem flatten_list_no_mergeTwo (g : GitOracle) : ∀ (ps : List BranchNode),
    ((flatten_list g ps).2.all fun k => !k.isMergeTwo) = true
  | [] => by simp [flatten_list]
  | p :: rest => by
    have ih1 := flatten_merges_no_mergeTwo g p
    have ih2 := flatten_list_no_mergeTwo g rest
    rcases hfp : flatten_merges g p with ⟨of, trf⟩
    rcases hfr : flatten_list g rest with ⟨oacc, trr⟩
    rw [hfp] at ih1
    rw [hfr] at ih2
    rcases of with _ | f
    · simp only [flatten_list, hfp, hfr]
      simpa using ih1
    · rcases oacc with _ | acc0
      · simp only [flatten_list, hfp, hfr]
        simp_all
      · simp only [flatten_list, hfp, hfr]
        by_cases hlen : f.parents.length > 1
        · rw [if_pos hlen]
          simp_all
        · rw [if_neg hlen]
          simp_all
termination_by ps => sizeOf ps

end

/-- Claim C7: when the accumulated post-splice parent list of a node in the
multi-parent branch of `flatten_merges` has three entries, the node's result
forges exactly one multi-parent merge commit — built from the original node's
tree content (`rc`) and referencing all three accumulated parents' commits in
their accumulated order — appending exactly that one forge call to the trace,
and the whole flattening trace contains no two-way content-merge call. -/
theorem flatten_forges_single_octopus (g : GitOracle) (rc : String)
    (ps acc : List BranchNode) (tr : List Call)
    (hps : 2 ≤ ps.length) (hfl : flatten_list g ps = (some acc, tr))
    (hacc : acc.length = 3) :
    flatten_merges g (.mk rc ps) =
      (some (.mk (g.forgeMerge rc (acc.map BranchNode.commit)) acc),
        tr ++ [.forgeMerge rc (acc.map BranchNode.commit)]) ∧
    ((tr ++ [Call.forgeMerge rc (acc.map BranchNode.commit)]).all
      fun k => !k.isMergeTwo) = true ∧
    (tr ++ [Call.forgeMerge rc (acc.map BranchNode.commit)]).countP
        (fun k : Call => k.isForge) =
      tr.countP (fun k : Call => k.isForge) + 1 := by
  rcases ps with _ | ⟨p1, _ | ⟨p2, rest⟩⟩
  · simp at hps
  · simp at hps
  · have hmain : flatten_merges g (.mk rc (p1 :: p2 :: rest)) =
        (some (.mk (g.forgeMerge rc (acc.map BranchNode.commit)) acc),
          tr ++ [.forgeMerge rc (acc.map BranchNode.commit)]) := by
      simp only [flatten_merges, hfl]
      rw [if_pos (by omega)]
    refine ⟨hmain, ?_, ?_⟩
    · have hall := flatten_merges_no_mergeTwo g (.mk rc (p1 :: p2 :: rest))
      rw [hmain] at hall
      exact hall
    · simp [List.countP_append, List.countP_cons, Call.isForge]

/-- Counterexample to C1: flattening the 2-chain `b -> a -> r` (each node one
parent, `r` a 0-parent root) on the all-succeeding oracle returns a tree whose
top node's sole parent still has one parent of its own — the chain is NOT
collapsed to a single edge between the endpoints; both edges survive. -/
theorem flatten_chain_keeps_every_edge_cex :
    (flatten_merges gTest (mkChain (.mk "r" []) ["b", "a"])).1 =
      some (.mk "b@a@r" [.mk "a@r" [.mk "r" []]]) ∧
    ((flatten_merges gTest (mkChain (.mk "r" []) ["b", "a"])).1.map
      (fun n => n.parents.map (fun p => p.parents.length))) = some [1] := by
  constructor <;>
    (simp only [mkChain, flatten_merges, flatten_list, gTest, BranchNode.commit,
      BranchNode.parents]
     decide)

/-- Amended C1: `flatten_merges` does not collapse a chain of K single-parent
nodes over a 0-parent root to one edge; it preserves the chain shape — the
result is again a chain of exactly K single-parent nodes ending at the same
root (each commit re-applied onto its flattened parent), and it succeeds
whenever every cherry-pick succeeds.  Only for K = 1 is there one edge. -/
theorem flatten_chain_shape_preserved (g : GitOracle) (root : BranchNode)
    (hroot : root.parents = []) (cs : List String) :
    (∀ res tr, flatten_merges g (mkChain root cs) = (some res, tr) →
      chainShape root res cs.length = true) ∧
    ((∀ a b, (g.cherryPick a b).isSome = true) →
      ((flatten_merges g (mkChain root cs)).1).isSome = true) := by
  induction cs with
  | nil =>
    obtain ⟨rc, ps⟩ := root
    simp only [BranchNode.parents] at hroot
    subst hroot
    constructor
    · intro res tr h
      simp only [mkChain, flatten_merges, Prod.mk.injEq, Option.some.injEq] at h
      obtain ⟨h1, -⟩ := h
      subst h1
      simp only [chainShape, List.length_nil]
      exact (BranchNode.beq_iff _ _).mpr rfl
    · intro htot
      simp [mkChain, flatten_merges]
  | cons c rest ih =>
    constructor
    · intro res tr h
      rcases hfp : flatten_merges g (mkChain root rest) with ⟨of, trf⟩
      rcases of with _ | f
      · simp only [mkChain, flatten_merges, hfp] at h
        exact absurd h (by simp)
      · rcases hcp : g.cherryPick c f.commit with _ | cm
        · simp only [mkChain, flatten_merges, hfp, hcp] at h
          exact absurd h (by simp)
        · simp only [mkChain, flatten_merges, hfp, hcp, Prod.mk.injEq,
            Option.some.injEq] at h
          obtain ⟨h1, -⟩ := h
          subst h1
          simp only [chainShape, BranchNode.parents, List.length_cons]
          exact ih.1 f trf hfp
    · intro htot
      rcases hfp : flatten_merges g (mkChain root rest) with ⟨of, trf⟩
      have h2 := ih.2 htot
      rw [hfp] at h2
      rcases of with _ | f
      · simp at h2
      · have h3 := htot c f.commit
        rcases hcp : g.cherryPick c f.commit with _ | cm
        · rw [hcp] at h3
          simp at h3
        · simp [mkChain, flatten_merges, hfp, hcp]

/-- Witness for the amended C1 at the concrete 2-chain. -/
theorem flatten_chain_shape_preserved_witness :
    chainShape (.mk "r" []) (.mk "b@a@r" [.mk "a@r" [.mk "r" []]]) 2 = true ∧
    ((flatten_merges gTest (mkChain (.mk "r" []) ["b", "a"])).1).isSome = true :=
  ⟨by
    have h := (flatten_chain_shape_preserved gTest (.mk "r" []) (by rfl) ["b", "a"]).1
      (.mk "b@a@r" [.mk "a@r" [.mk "r" []]])
      [.cherryPick "a" "r", .cherryPick "b" "a@r"]
      (by
        simp only [mkChain, flatten_merges, flatten_list, gTest, BranchNode.commit,
          BranchNode.parents]
        decide)
    simpa using h,
   (flatten_chain_shape_preserved gTest (.mk "r" []) (by rfl) ["b", "a"]).2
     (fun a b => rfl)⟩
/-- Counterexample to C3: for the 2-parent node `r` with parents
`A = a -> z` and `B = b`, the flattened form of `A` is the distinct node
`a@z -> z` (one parent), yet `flatten_merges` returns `r` UNCHANGED with the
original unflattened `A` as its parent — the flattened node is not kept. -/
theorem flatten_uses_original_parent_cex :
    flatten_merges gTest (.mk "r" [.mk "a" [.mk "z" []], .mk "b" []]) =
      (some (.mk "r" [.mk "a" [.mk "z" []], .mk "b" []]), [.cherryPick "a" "z"]) ∧
    (flatten_merges gTest (.mk "a" [.mk "z" []])).1 = some (.mk "a@z" [.mk "z" []]) ∧
    BranchNode.mk "a" [.mk "z" []] ≠ .mk "a@z" [.mk "z" []] := by
  refine ⟨?_, ?_, by decide⟩ <;>
    (simp only [flatten_merges, flatten_list, gTest, BranchNode.commit,
      BranchNode.parents]
     decide)

/-- Amended C3: in the multi-parent branch of `flatten_merges`, a parent
whose flattened form has at most one parent is accumulated as the ORIGINAL
unflattened parent (the flattening result is discarded), and when the
accumulated count stays at 2 or below the node itself is returned unchanged,
with its original — not flattened — parents. -/
theorem flatten_accumulates_original_parents :
    (∀ (g : GitOracle) (p : BranchNode) (rest : List BranchNode) (f : BranchNode)
      (tp : List Call) (acc : List BranchNode) (ta : List Call),
      flatten_merges g p = (some f, tp) → f.parents.length ≤ 1 →
      flatten_list g rest = (some acc, ta) →
      flatten_list g (p :: rest) = (some (p :: acc), tp ++ ta)) ∧
    (∀ (g : GitOracle) (rc : String) (ps acc : List BranchNode) (tr : List Call),
      2 ≤ ps.length → flatten_list g ps = (some acc, tr) → acc.length ≤ 2 →
      flatten_merges g (.mk rc ps) = (some (.mk rc ps), tr)) := by
  constructor
  · intro g p rest f tp acc ta hfp hlen hfr
    simp only [flatten_list, hfp, hfr]
    rw [if_neg (by omega)]
  · intro g rc ps acc tr hps hfl hacc
    rcases ps with _ | ⟨p1, _ | ⟨p2, rest⟩⟩
    · simp at hps
    · simp at hps
    · simp only [flatten_merges, hfl]
      rw [if_neg (by omega)]

/-- Witness for the amended C3 at the concrete 2-parent node. -/
theorem flatten_accumulates_original_parents_witness :
    flatten_list gTest [BranchNode.mk "a" [.mk "z" []], .mk "b" []] =
      (some [BranchNode.mk "a" [.mk "z" []], .mk "b" []],
        [Call.cherryPick "a" "z"] ++ []) ∧
    flatten_merges gTest (.mk "r" [.mk "a" [.mk "z" []], .mk "b" []]) =
      (some (.mk "r" [.mk "a" [.mk "z" []], .mk "b" []]), [.cherryPick "a" "z"]) :=
  ⟨flatten_accumulates_original_parents.1 gTest (.mk "a" [.mk "z" []]) [.mk "b" []]
      (.mk "a@z" [.mk "z" []]) [.cherryPick "a" "z"] [.mk "b" []] []
      (by
        simp only [flatten_merges, gTest, BranchNode.commit, BranchNode.parents]
        decide)
      (by decide)
      (by
        simp only [flatten_list, flatten_merges, BranchNode.parents]
        decide),
   flatten_accumulates_original_parents.2 gTest "r"
      [.mk "a" [.mk "z" []], .mk "b" []] [.mk "a" [.mk "z" []], .mk "b" []]
      [.cherryPick "a" "z"] (by simp)
      (by
        simp only [flatten_list, flatten_merges, gTest, BranchNode.commit,
          BranchNode.parents]
        decide)
      (by simp)⟩

/-- Counterexample to C4: the tree `a@r -> r` is itself the output of
`flatten_merges` on `a -> r`, yet re-flattening it produces the DIFFERENT
tree `a@r@r -> r` (a fresh cherry-picked identifier) and issues a new
backend cherry-pick call — flattening is not idempotent. -/
theorem flatten_not_idempotent_cex :
    flatten_merges gTest (.mk "a" [.mk "r" []]) =
      (some (.mk "a@r" [.mk "r" []]), [.cherryPick "a" "r"]) ∧
    flatten_merges gTest (.mk "a@r" [.mk "r" []]) =
      (some (.mk "a@r@r" [.mk "r" []]), [.cherryPick "a@r" "r"]) ∧
    BranchNode.mk "a@r@r" [.mk "r" []] ≠ .mk "a@r" [.mk "r" []] := by
  refine ⟨?_, ?_, by decide⟩ <;>
    (simp only [flatten_merges, gTest, BranchNode.commit, BranchNode.parents]
     decide)

/-- Amended C4: `flatten_merges` is a no-call fixed point only on 0-parent
roots; on any 1-parent node — already flattened or not — it always issues a
fresh cherry-pick backend call on top of the flattened parent, so
re-flattening an already-flattened chain re-issues backend calls and churns
commit identifiers. -/
theorem flatten_idempotent_only_for_roots :
    (∀ (g : GitOracle) (rc : String),
      flatten_merges g (.mk rc []) = (some (.mk rc []), [])) ∧
    (∀ (g : GitOracle) (rc : String) (p f : BranchNode) (tp : List Call),
      flatten_merges g p = (some f, tp) →
      (flatten_merges g (.mk rc [p])).2 = tp ++ [.cherryPick rc f.commit]) := by
  constructor
  · intro g rc
    simp [flatten_merges]
  · intro g rc p f tp hfp
    rcases hcp : g.cherryPick rc f.commit with _ | cm <;>
      simp [flatten_merges, hfp, hcp]

/-- Witness for the amended C4: a 0-parent root is returned untouched, and
re-flattening the already-flattened `a@r -> r` issues a cherry-pick call. -/
theorem flatten_idempotent_only_for_roots_witness :
    flatten_merges gTest (.mk "r" []) = (some (.mk "r" []), []) ∧
    (flatten_merges gTest (.mk "a@r" [.mk "r" []])).2 =
      [] ++ [Call.cherryPick "a@r" "r"] :=
  ⟨flatten_idempotent_only_for_roots.1 gTest "r",
   flatten_idempotent_only_for_roots.2 gTest "a@r" (.mk "r" []) (.mk "r" []) []
     (by simp [flatten_merges])⟩
/-- If the newest-first history is one unbroken line of descent under FULL
identifier equality, the 7-character abbreviated link lists compared by
`commit_chain` coincide. -/
theorem linked_take7 (commits : List ChainEntry) :
    linkedFull commits = true →
    (commits.drop 1).map (fun e => e.hash.take 7) =
      commits.dropLast.map (fun e => (e.parents.headD "").take 7) := by
  induction commits with
  | nil => intro h; simp
  | cons a rest ih =>
    cases rest with
    | nil => intro h; simp
    | cons b rest2 =>
      intro h
      rw [linkedFull, Bool.and_eq_true] at h
      obtain ⟨h1, h2⟩ := h
      replace h1 := eq_of_beq h1
      have ih2 := ih h2
      simp only [List.drop_succ_cons, List.drop_zero] at ih2 ⊢
      rw [List.dropLast_cons₂, List.map_cons, List.map_cons, h1]
      exact congrArg _ ih2

/-- Claim C9: on a newest-first history of any length N in which every entry
has exactly one parent and adjacent entries form one unbroken line of descent,
`commit_chain` returns exactly the N hashes in oldest-to-newest order (the
reverse of the input); on any history containing an entry with 0 or 2
parents it fails with a parse error. -/
theorem commit_chain_linear_histories :
    (∀ commits : List ChainEntry, (∀ e ∈ commits, e.parents.length = 1) →
      linkedFull commits = true →
      commit_chain commits = some (commits.reverse.map ChainEntry.hash) ∧
      (commits.reverse.map ChainEntry.hash).length = commits.length) ∧
    (∀ (commits : List ChainEntry) (e : ChainEntry), e ∈ commits →
      (e.parents.length = 0 ∨ e.parents.length = 2) →
      commit_chain commits = none) := by
  constructor
  · intro commits h1 h2
    refine ⟨?_, by simp⟩
    have hA : ¬(commits.any fun e => decide (e.parents.length ≠ 1)) = true := by
      intro hcon
      obtain ⟨x, hx, hdx⟩ := List.any_eq_true.mp hcon
      simp only [decide_eq_true_eq] at hdx
      exact hdx (h1 x hx)
    rw [commit_chain, if_neg hA, if_neg (fun hne => hne (linked_take7 commits h2))]
  · intro commits e he hlen
    have hA : (commits.any fun e => decide (e.parents.length ≠ 1)) = true :=
      List.any_eq_true.mpr ⟨e, he, by rcases hlen with h | h <;> simp [h]⟩
    rw [commit_chain, if_pos hA]

/-- Witness for C9: a 2-entry linear history validates to its reversed hash
list of length 2, and a 0-parent entry is rejected. -/
theorem commit_chain_linear_histories_witness :
    (commit_chain [⟨"aaaaaaa1", ["bbbbbbb1"]⟩, ⟨"bbbbbbb1", ["ccccccc1"]⟩] =
      some ["bbbbbbb1", "aaaaaaa1"] ∧
     (([⟨"aaaaaaa1", ["bbbbbbb1"]⟩, ⟨"bbbbbbb1", ["ccccccc1"]⟩] :
        List ChainEntry).reverse.map ChainEntry.hash).length = 2) ∧
    commit_chain [⟨"xxxxxxx1", []⟩] = none :=
  ⟨commit_chain_linear_histories.1
      [⟨"aaaaaaa1", ["bbbbbbb1"]⟩, ⟨"bbbbbbb1", ["ccccccc1"]⟩]
      (by decide) (by decide),
   commit_chain_linear_histories.2 [⟨"xxxxxxx1", []⟩] ⟨"xxxxxxx1", []⟩
      (by decide) (by decide)⟩

/-- Claim C10: whenever some adjacent pair's 7-character abbreviated
identifier prefixes disagree, `commit_chain` fails with a parse error; and
the linkage check compares ONLY the first 7 characters — a history whose
prefixes agree passes validation even when the full identifiers differ. -/
theorem commit_chain_abbreviated_links :
    (∀ commits : List ChainEntry,
      (commits.drop 1).map (fun e => e.hash.take 7) ≠
        commits.dropLast.map (fun e => (e.parents.headD "").take 7) →
      commit_chain commits = none) ∧
    (∀ commits : List ChainEntry, (∀ e ∈ commits, e.parents.length = 1) →
      (commits.drop 1).map (fun e => e.hash.take 7) =
        commits.dropLast.map (fun e => (e.parents.headD "").take 7) →
      commit_chain commits = some (commits.reverse.map ChainEntry.hash)) := by
  constructor
  · intro commits hne
    by_cases hA : (commits.any fun e => decide (e.parents.length ≠ 1)) = true
    · rw [commit_chain, if_pos hA]
    · rw [commit_chain, if_neg hA, if_pos hne]
  · intro commits h1 heq
    have hA : ¬(commits.any fun e => decide (e.parents.length ≠ 1)) = true := by
      intro hcon
      obtain ⟨x, hx, hdx⟩ := List.any_eq_true.mp hcon
      simp only [decide_eq_true_eq] at hdx
      exact hdx (h1 x hx)
    rw [commit_chain, if_neg hA, if_neg (fun hcon => hcon heq)]

/-- Witness for C10: a prefix-mismatched history is rejected, while a
history whose adjacent full identifiers differ (`bbbbbbb1` vs `bbbbbbb2`)
but whose 7-character prefixes agree is accepted. -/
theorem commit_chain_abbreviated_links_witness :
    commit_chain [⟨"yyyyyyy1", ["xxxxxxx1"]⟩, ⟨"zzzzzzz1", ["w"]⟩] = none ∧
    commit_chain [⟨"aaaaaaa1", ["bbbbbbb1"]⟩, ⟨"bbbbbbb2", ["c"]⟩] =
      some ["bbbbbbb2", "aaaaaaa1"] :=
  ⟨commit_chain_abbreviated_links.1 [⟨"yyyyyyy1", ["xxxxxxx1"]⟩, ⟨"zzzzzzz1", ["w"]⟩]
      (by decide),
   commit_chain_abbreviated_links.2 [⟨"aaaaaaa1", ["bbbbbbb1"]⟩, ⟨"bbbbbbb2", ["c"]⟩]
      (by decide) (by decide)⟩

/-- Witness for C7: a node with three independent 0-parent parents flattens
to a single forged commit referencing all three in order, with the forge as
its only backend call. -/
theorem flatten_forges_single_octopus_witness :
    flatten_merges gTest (.mk "r" [.mk "a" [], .mk "b" [], .mk "c" []]) =
      (some (.mk (gTest.forgeMerge "r" ["a", "b", "c"])
          [.mk "a" [], .mk "b" [], .mk "c" []]),
        [Call.forgeMerge "r" ["a", "b", "c"]]) ∧
    (([Call.forgeMerge "r" ["a", "b", "c"]] : List Call).all
      fun k => !k.isMergeTwo) = true ∧
    ([Call.forgeMerge "r" ["a", "b", "c"]] : List Call).countP
        (fun k : Call => k.isForge) =
      ([] : List Call).countP (fun k : Call => k.isForge) + 1 :=
  flatten_forges_single_octopus gTest "r" [.mk "a" [], .mk "b" [], .mk "c" []]
    [.mk "a" [], .mk "b" [], .mk "c" []] [] (by simp)
    (by simp [flatten_list, flatten_merges, BranchNode.parents]) (by simp)

/-- Claim C8: every node of a tree produced by `apply_patch` from a tree
whose nodes all have at most two parents again has at most two parents
(parent count 0, 1 or 2); and in a tree produced by `flatten_merges` from
such a tree, a node's parent count exceeds 2 only when that node is the
output of a forged multi-parent merge (its commit is the backend's forge of
its exact parent list, and that forge call appears in the trace). -/
theorem parent_count_invariant :
    (∀ (g : GitOracle) (c : String) (root res : BranchNode) (tr : List Call),
      arityOK root = true → apply_patch g c root = (.ok (some res), tr) →
        arityOK res = true) ∧
    (∀ (g : GitOracle) (root res : BranchNode) (tr : List Call),
      arityOK root = true → flatten_merges g root = (some res, tr) →
        ∀ n ∈ allNodes res, 2 < n.parents.length →
          ∃ t, n.commit = g.forgeMerge t (n.parents.map BranchNode.commit) ∧
            Call.forgeMerge t (n.parents.map BranchNode.commit) ∈ tr) :=
  ⟨fun g c root res tr h1 h2 => apply_patch_arity g c root h1 res tr h2,
   fun g root res tr h1 h2 => flatten_merges_forged g root h1 res tr h2⟩

/-- Witness for C8: the propagation result over a 1-parent node keeps every
parent count at most 2, and re-flattening a tree containing a 2-parent child
forges an octopus whose commit is the recorded forge of its three parents. -/
theorem parent_count_invariant_witness :
    arityOK (BranchNode.mk "x+c@r" [.mk "x" [.mk "r" []], .mk "c@r" [.mk "r" []]]) = true ∧
    (∃ t, (BranchNode.mk "r!xyb"
        [.mk "x" [], .mk "y" [], .mk "b" []]).commit =
          gTest.forgeMerge t ["x", "y", "b"] ∧
        Call.forgeMerge t ["x", "y", "b"] ∈
          [Call.forgeMerge "r" ["x", "y", "b"]]) :=
  ⟨parent_count_invariant.1 gTest "c" (.mk "x" [.mk "r" []])
      (.mk "x+c@r" [.mk "x" [.mk "r" []], .mk "c@r" [.mk "r" []]])
      [.cherryPick "c" "x", .cherryPick "c" "r", .mergeTwo "x" "c@r"]
      (by simp [arityOK, allNodes, allNodesList, BranchNode.parents]) (by rfl),
   by
    have h := parent_count_invariant.2 gTest
      (.mk "r" [.mk "a" [.mk "x" [], .mk "y" []], .mk "b" []])
      (.mk "r!xyb" [.mk "x" [], .mk "y" [], .mk "b" []])
      [Call.forgeMerge "r" ["x", "y", "b"]]
      (by simp [arityOK, allNodes, allNodesList, BranchNode.parents])
      (by
        simp only [flatten_merges, flatten_list, gTest, BranchNode.parents,
          BranchNode.commit]
        decide)
      (.mk "r!xyb" [.mk "x" [], .mk "y" [], .mk "b" []])
      (self_mem_allNodes _) (by simp [BranchNode.parents])
    simpa [BranchNode.parents, BranchNode.commit] using h⟩

end Gitmanip
